import Mathlib

/-!
Shallow embedding of `baseapp/abci_utils.go`: the default ABCI
PrepareProposal / ProcessProposal handlers and the default transaction
selector of the cosmos-sdk baseapp.

Machine integers (`uint64`) are modelled as `Nat` with explicit
reduction modulo `2 ^ 64` wherever the Go code performs `uint64`
arithmetic (`+=`, `seq + 1`, `seq - 1`, and the `uint64(...)`
conversions from `int64`).  Transaction bytes are opaque: only their
length and identity matter, so a transaction byte string is a
`List Nat`.
-/

/-- The `uint64` modulus. -/
def U64 : Nat := 2 ^ 64

/-- Encoded transaction bytes (`[]byte` in Go); contents are opaque. -/
abbrev ByteString : Type := List Nat

/-- A decoded mempool transaction (`sdk.Tx`).  `gas = some g` models a
transaction implementing the `GasTx` interface with `GetGas() = g`;
`gas = none` models a transaction without the gas capability.  `sigs`
is the list of `(signer address, sequence)` pairs returned by
`GetSignaturesV2` (addresses are modelled as `Nat`). -/
structure MemTx where
  gas : Option Nat
  sigs : List (Nat × Nat)
deriving DecidableEq

/-- Gas limit extraction in `defaultTxSelector.SelectTxForProposal`:
`0` when `memTx` is `nil` or does not implement `GasTx`. -/
def gasLimit : Option MemTx → Nat
  | none => 0
  | some m => match m.gas with
    | none => 0
    | some g => g

/-- The `defaultTxSelector` state: running byte total, running gas
total, and the ordered list of selected transactions. -/
structure Selector where
  totalTxBytes : Nat
  totalTxGas : Nat
  selectedTxs : List ByteString
deriving DecidableEq

/-- `NewDefaultTxSelector` / `Clear`: the zeroed selector. -/
def Selector.clear : Selector := ⟨0, 0, []⟩

/-- `defaultTxSelector.SelectTxForProposal`: admit `txBz` when it fits
the byte budget and (when a positive gas budget is configured) the gas
budget; return the updated selector and the halt flag
`totalTxBytes >= maxTxBytes || (maxBlockGas > 0 && totalTxGas >= maxBlockGas)`. -/
def selectTxForProposal (maxTxBytes maxBlockGas : Nat) (memTx : Option MemTx)
    (txBz : ByteString) (ts : Selector) : Selector × Bool :=
  let txSize := txBz.length
  let txGasLimit := gasLimit memTx
  let ts' :=
    if (txSize + ts.totalTxBytes) % U64 ≤ maxTxBytes then
      if 0 < maxBlockGas then
        if (txGasLimit + ts.totalTxGas) % U64 ≤ maxBlockGas then
          ⟨(ts.totalTxBytes + txSize) % U64, (ts.totalTxGas + txGasLimit) % U64,
            ts.selectedTxs ++ [txBz]⟩
        else ts
      else
        ⟨(ts.totalTxBytes + txSize) % U64, ts.totalTxGas, ts.selectedTxs ++ [txBz]⟩
    else ts
  (ts', decide (maxTxBytes ≤ ts'.totalTxBytes) ||
        (decide (0 < maxBlockGas) && decide (maxBlockGas ≤ ts'.totalTxGas)))

/-- Go's `uint64(i)` conversion of an `int64` value: two's-complement
reinterpretation, i.e. reduction modulo `2 ^ 64`. -/
def uint64OfInt (i : Int) : Nat := (i % ((2 : Int) ^ 64)).toNat

/-- The `maxBlockGas` computed at the top of `PrepareProposalHandler`:
`uint64(b.MaxGas)` when consensus parameters carry a `Block`, else `0`. -/
def prepareMaxBlockGas : Option Int → Nat
  | none => 0
  | some g => uint64OfInt g

/-- Association-list lookup, modelling Go `map[string]uint64` reads. -/
def alookup (k : Nat) : List (Nat × Nat) → Option Nat
  | [] => none
  | (k', v) :: rest => if k = k' then some v else alookup k rest

/-- Association-list update, modelling Go map assignment. -/
def aset (k v : Nat) : List (Nat × Nat) → List (Nat × Nat)
  | [] => [(k, v)]
  | (k', v') :: rest => if k = k' then (k, v) :: rest else (k', v') :: aset k v rest

/-- The signature scan of `PrepareProposalHandler` (the `shouldAdd`
loop): walk the `(signer, sequence)` pairs, building the transaction's
own signer map `txSignersSeqs` (later assignments win, as in a Go map);
a signer already recorded in `selectedTxsSignersSeqs` with sequence `s`
is acceptable only when the pair's sequence is `s + 1` (in `uint64`
arithmetic); otherwise the whole scan fails (`shouldAdd = false`,
modelled as `none`). -/
def scanSigs (selSeqs : List (Nat × Nat)) : List (Nat × Nat) → List (Nat × Nat) →
    Option (List (Nat × Nat))
  | txSeqs, [] => some txSeqs
  | txSeqs, (signer, sq) :: rest =>
    match alookup signer selSeqs with
    | none => scanSigs selSeqs (aset signer sq txSeqs) rest
    | some s =>
      if (s + 1) % U64 = sq then scanSigs selSeqs (aset signer sq txSeqs) rest
      else none

/-- The bookkeeping loop run after a non-halting selector call: for
each `(sender, seq)` of the transaction's signer map, when a new
transaction was admitted (`txsLen ≠ selectedTxsNums`) record `seq`;
otherwise, when the sender is not yet recorded, record `seq - 1` (in
`uint64` arithmetic) to avoid re-verifying this signer's later
transactions.  Go iterates the map in unspecified order; since the
keys are distinct and each step reads and writes only its own key,
every order yields the same map, so iterating in association-list
order is faithful. -/
def commitSeqs (txsLen selNums : Nat) : List (Nat × Nat) → List (Nat × Nat) →
    List (Nat × Nat)
  | [], selSeqs => selSeqs
  | (sender, sq) :: rest, selSeqs =>
    commitSeqs txsLen selNums rest
      (if txsLen ≠ selNums then aset sender sq selSeqs
       else match alookup sender selSeqs with
         | some _ => selSeqs
         | none => aset sender ((sq + (U64 - 1)) % U64) selSeqs)

/-- The mempool iteration of `PrepareProposalHandler` (real-mempool
path): filter by signer sequences, verify, feed the selector, update
the signer bookkeeping, stop on the halt signal. -/
def prepLoop (maxB maxG : Nat) (verify : MemTx → Option ByteString) :
    List MemTx → List (Nat × Nat) → Nat → Selector → Selector
  | [], _, _, ts => ts
  | m :: rest, selSeqs, selNums, ts =>
    match scanSigs selSeqs [] m.sigs with
    | none => prepLoop maxB maxG verify rest selSeqs selNums ts
    | some txSeqs =>
      match verify m with
      | none => prepLoop maxB maxG verify rest selSeqs selNums ts
      | some bz =>
        let r := selectTxForProposal maxB maxG (some m) bz ts
        if r.2 then r.1
        else
          prepLoop maxB maxG verify rest
            (commitSeqs r.1.selectedTxs.length selNums txSeqs selSeqs)
            r.1.selectedTxs.length r.1

/-- `prepLoop` instrumented with a ghost list of the admitted
transactions, each paired with its verified encoding.  The selector
component coincides with `prepLoop` (`prepLoopG_fst`). -/
def prepLoopG (maxB maxG : Nat) (verify : MemTx → Option ByteString) :
    List MemTx → List (Nat × Nat) → Nat → Selector → List (MemTx × ByteString) →
    Selector × List (MemTx × ByteString)
  | [], _, _, ts, adm => (ts, adm)
  | m :: rest, selSeqs, selNums, ts, adm =>
    match scanSigs selSeqs [] m.sigs with
    | none => prepLoopG maxB maxG verify rest selSeqs selNums ts adm
    | some txSeqs =>
      match verify m with
      | none => prepLoopG maxB maxG verify rest selSeqs selNums ts adm
      | some bz =>
        let r := selectTxForProposal maxB maxG (some m) bz ts
        let adm' := if r.1.selectedTxs.length ≠ ts.selectedTxs.length
                    then adm ++ [(m, bz)] else adm
        if r.2 then (r.1, adm')
        else
          prepLoopG maxB maxG verify rest
            (commitSeqs r.1.selectedTxs.length selNums txSeqs selSeqs)
            r.1.selectedTxs.length r.1 adm'

/-- The no-op-mempool loop of `PrepareProposalHandler`: feed the raw
request transactions to the selector with a `nil` decoded transaction,
stopping on the halt signal. -/
def noOpPrepareLoop (maxB maxG : Nat) : Selector → List ByteString → Selector
  | ts, [] => ts
  | ts, bz :: rest =>
    let r := selectTxForProposal maxB maxG none bz ts
    if r.2 then r.1 else noOpPrepareLoop maxB maxG r.1 rest

/-- The mempool configuration of a `DefaultProposalHandler`: `noop`
covers both a `nil` mempool and a `mempool.NoOpMempool`; `real` carries
the sequence of transactions its iterator yields. -/
inductive Mempool where
  | noop : Mempool
  | real : List MemTx → Mempool

/-- Result status of `ProcessProposal`. -/
inductive ProposalStatus where
  | accept : ProposalStatus
  | reject : ProposalStatus
deriving DecidableEq

/-- `PrepareProposalHandler`: dispatch on the mempool configuration;
`block` is `Block.MaxGas` from consensus parameters (`none` when no
`Block` is present), `maxTxBytesReq` is `req.MaxTxBytes` (an `int64`,
converted with `uint64(...)`). -/
def prepareProposal (mp : Mempool) (verify : MemTx → Option ByteString)
    (block : Option Int) (maxTxBytesReq : Int) (reqTxs : List ByteString) :
    List ByteString :=
  let maxB := uint64OfInt maxTxBytesReq
  let maxG := prepareMaxBlockGas block
  match mp with
  | .noop => (noOpPrepareLoop maxB maxG Selector.clear reqTxs).selectedTxs
  | .real pool => (prepLoop maxB maxG verify pool [] 0 Selector.clear).selectedTxs

/-- The gas a decoded transaction contributes on the process side:
`verifyP bz = some gasOpt` models a successful
`ProcessProposalVerifyTx` whose transaction implements `GasTx` exactly
when `gasOpt = some g`. -/
def declGas (verifyP : ByteString → Option (Option Nat)) (bz : ByteString) : Nat :=
  match verifyP bz with
  | some (some g) => g
  | _ => 0

/-- The gas accumulation step of `ProcessProposalHandler`: add the
declared gas (in `uint64` arithmetic) when the decoded transaction
implements `GasTx`, else leave the total alone. -/
def newTotal (t : Nat) : Option Nat → Nat
  | some g => (t + g) % U64
  | none => t

/-- The transaction scan of `ProcessProposalHandler` (real-mempool
path): verify each transaction; with a positive `maxBlockGas`
accumulate declared gas (in `uint64` arithmetic) and reject as soon as
the running total exceeds `uint64(maxBlockGas)`. -/
def processLoop (verifyP : ByteString → Option (Option Nat)) (maxBlockGas : Int) :
    Nat → List ByteString → ProposalStatus
  | _, [] => .accept
  | totalTxGas, bz :: rest =>
    match verifyP bz with
    | none => .reject
    | some gasOpt =>
      if 0 < maxBlockGas then
        if uint64OfInt maxBlockGas < newTotal totalTxGas gasOpt then .reject
        else processLoop verifyP maxBlockGas (newTotal totalTxGas gasOpt) rest
      else processLoop verifyP maxBlockGas totalTxGas rest

/-- `ProcessProposalHandler`: with a `nil` or no-op mempool the handler
is `NoOpProcessProposal` (always accept); otherwise scan the received
transactions. -/
def processProposal (mp : Mempool) (verifyP : ByteString → Option (Option Nat))
    (block : Option Int) (reqTxs : List ByteString) : ProposalStatus :=
  match mp with
  | .noop => .accept
  | .real _ =>
    let maxBlockGas : Int := match block with
      | none => 0
      | some g => g
    processLoop verifyP maxBlockGas 0 reqTxs

/-- Run a list of selector calls (shared budgets) left to right. -/
def runSelect (maxB maxG : Nat) (calls : List (Option MemTx × ByteString))
    (ts : Selector) : Selector :=
  calls.foldl (fun s c => (selectTxForProposal maxB maxG c.1 c.2 s).1) ts

/-- Wrapped (`uint64`) running sum used to describe gas accumulation. -/
def wsum (t : Nat) (gs : List Nat) : Nat := gs.foldl (fun a g => (a + g) % U64) t

/-- A list of sequence numbers is strictly consecutive modulo `2 ^ 64`:
each element is the previous one plus one in `uint64` arithmetic. -/
def consecB : List Nat → Bool
  | [] => true
  | [_] => true
  | x :: y :: rest => (y == (x + 1) % U64) && consecB (y :: rest)

/-- The sequence value a Go map built from `sigs` records for signer
`a`: the value of the last `(a, _)` pair, if any. -/
def lastSigSeq (a : Nat) : List (Nat × Nat) → Option Nat
  | [] => none
  | (b, sq) :: rest =>
    match lastSigSeq a rest with
    | some v => some v
    | none => if b = a then some sq else none

/-- The sequence numbers signer `a` records across a list of admitted
transactions, in admission order. -/
def seqList (a : Nat) (adm : List (MemTx × ByteString)) : List Nat :=
  adm.filterMap (fun p => lastSigSeq a p.1.sigs)

/-- Gas attributed to an admitted (transaction, encoding) pair. -/
def admGas (p : MemTx × ByteString) : Nat := gasLimit (some p.1)

/-- Modelled from the spec: the longest prefix of the candidate list
whose total byte length fits within the byte budget (the refinement
target named by the no-op fallback sentence of the spec; written from
the spec's words, for comparison with the code's behaviour). -/
def specLongestFit (maxB : Nat) : List ByteString → List ByteString
  | [] => []
  | bz :: rest =>
    if bz.length ≤ maxB then bz :: specLongestFit (maxB - bz.length) rest
    else []

/-- The byte-budget greedy scan the no-op path actually performs:
admit each candidate whose (wrapped) size keeps the running byte total
within `maxB`, skip candidates that do not fit, and stop the scan once
the running total has reached `maxB`. -/
def specGreedyBytes (maxB : Nat) : Nat → List ByteString → List ByteString
  | _, [] => []
  | total, bz :: rest =>
    let fits := (bz.length + total) % U64 ≤ maxB
    let total' := if fits then (total + bz.length) % U64 else total
    let sel := if fits then [bz] else []
    if maxB ≤ total' then sel
    else sel ++ specGreedyBytes maxB total' rest

/-- The running (wrapped) declared-gas totals the validator observes
after each transaction of the list, starting from `t`. -/
def gasTotals (verifyP : ByteString → Option (Option Nat)) :
    Nat → List ByteString → List Nat
  | _, [] => []
  | t, bz :: rest =>
    (t + declGas verifyP bz) % U64 ::
      gasTotals verifyP ((t + declGas verifyP bz) % U64) rest

/-- The running (wrapped) gas totals after each admitted transaction
of a ghost admission list, starting from `t`. -/
def admTotals : Nat → List (MemTx × ByteString) → List Nat
  | _, [] => []
  | t, p :: rest => (t + admGas p) % U64 :: admTotals ((t + admGas p) % U64) rest

/-- A concrete build-side verifier used to exercise the symmetry
theorem: it encodes a transaction's gas capability into its bytes. -/
def encodeTx (m : MemTx) : Option ByteString :=
  some (match m.gas with
    | none => []
    | some g => [g])

/-- The matching process-side verifier: decodes what `encodeTx`
produced, with identical gas attribution. -/
def decodeTx : ByteString → Option (Option Nat)
  | [] => some none
  | g :: _ => some (some g)

/-- `U64` unfolded, for arithmetic automation. -/
theorem U64_eq : U64 = 2 ^ 64 := rfl

/-! ## Basic facts about the selector -/

/-- Case analysis of `SelectTxForProposal`: the updated selector is the
admission update exactly under the byte check and (unless the gas
budget is zero) the gas check; otherwise the state is returned
untouched. -/
theorem select_fst_eq (maxB maxG : Nat) (memTx : Option MemTx) (bz : ByteString)
    (ts : Selector) :
    (selectTxForProposal maxB maxG memTx bz ts).1 =
      if (bz.length + ts.totalTxBytes) % U64 ≤ maxB ∧
          (maxG = 0 ∨ (gasLimit memTx + ts.totalTxGas) % U64 ≤ maxG) then
        ⟨(ts.totalTxBytes + bz.length) % U64,
          if 0 < maxG then (ts.totalTxGas + gasLimit memTx) % U64 else ts.totalTxGas,
          ts.selectedTxs ++ [bz]⟩
      else ts := by
  unfold selectTxForProposal
  by_cases hb : (bz.length + ts.totalTxBytes) % U64 ≤ maxB
  · by_cases hg0 : 0 < maxG
    · by_cases hg : (gasLimit memTx + ts.totalTxGas) % U64 ≤ maxG
      · simp [hb, hg0, hg, Nat.pos_iff_ne_zero.mp hg0]
      · have hnot : ¬ (maxG = 0 ∨ (gasLimit memTx + ts.totalTxGas) % U64 ≤ maxG) := by
          rintro (h | h)
          · omega
          · exact hg h
        have hz' : ¬ maxG = 0 := by omega
        simp [hb, hg0, hg, hnot, hz']
    · have hz : maxG = 0 := by omega
      simp [hb, hg0, hz]
  · simp [hb]

/-- The halt flag is exactly the post-decision capacity test. -/
theorem select_snd_iff (maxB maxG : Nat) (memTx : Option MemTx) (bz : ByteString)
    (ts : Selector) :
    (selectTxForProposal maxB maxG memTx bz ts).2 = true ↔
      (maxB ≤ (selectTxForProposal maxB maxG memTx bz ts).1.totalTxBytes ∨
       (0 < maxG ∧ maxG ≤ (selectTxForProposal maxB maxG memTx bz ts).1.totalTxGas)) := by
  unfold selectTxForProposal
  simp [Bool.or_eq_true, Bool.and_eq_true, decide_eq_true_iff]

/-- A selector call preserves the byte-budget invariant. -/
theorem select_bytes_le (maxB maxG : Nat) (memTx : Option MemTx) (bz : ByteString)
    (ts : Selector) (h : ts.totalTxBytes ≤ maxB) :
    (selectTxForProposal maxB maxG memTx bz ts).1.totalTxBytes ≤ maxB := by
  rw [select_fst_eq]
  split
  · rename_i hc
    have := hc.1
    simpa [Nat.add_comm] using this
  · exact h

/-- A selector call preserves the gas-budget invariant when a positive
gas budget is configured. -/
theorem select_gas_le (maxB maxG : Nat) (memTx : Option MemTx) (bz : ByteString)
    (ts : Selector) (hg0 : 0 < maxG) (h : ts.totalTxGas ≤ maxG) :
    (selectTxForProposal maxB maxG memTx bz ts).1.totalTxGas ≤ maxG := by
  rw [select_fst_eq]
  split
  · rename_i hc
    rcases hc.2 with hz | hgas
    · omega
    · simpa [hg0, Nat.add_comm] using hgas
  · exact h

/-- With a zero gas budget the decision and the whole result are
independent of the decoded transaction (hence of its gas). -/
theorem select_gas_irrelevant (maxB : Nat) (m₁ m₂ : Option MemTx) (bz : ByteString)
    (ts : Selector) :
    selectTxForProposal maxB 0 m₁ bz ts = selectTxForProposal maxB 0 m₂ bz ts := by
  unfold selectTxForProposal
  simp

/-- `runSelect` on a cons step. -/
theorem runSelect_cons (maxB maxG : Nat) (c : Option MemTx × ByteString)
    (calls : List (Option MemTx × ByteString)) (ts : Selector) :
    runSelect maxB maxG (c :: calls) ts =
      runSelect maxB maxG calls (selectTxForProposal maxB maxG c.1 c.2 ts).1 := rfl

/-- `runSelect` preserves the byte-budget invariant. -/
theorem runSelect_bytes_le (maxB maxG : Nat) :
    ∀ (calls : List (Option MemTx × ByteString)) (ts : Selector),
      ts.totalTxBytes ≤ maxB → (runSelect maxB maxG calls ts).totalTxBytes ≤ maxB
  | [], _, h => h
  | c :: rest, ts, h => by
    rw [runSelect_cons]
    exact runSelect_bytes_le maxB maxG rest _ (select_bytes_le maxB maxG c.1 c.2 ts h)

/-- `runSelect` preserves the gas-budget invariant when positive. -/
theorem runSelect_gas_le (maxB maxG : Nat) (hg0 : 0 < maxG) :
    ∀ (calls : List (Option MemTx × ByteString)) (ts : Selector),
      ts.totalTxGas ≤ maxG → (runSelect maxB maxG calls ts).totalTxGas ≤ maxG
  | [], _, h => h
  | c :: rest, ts, h => by
    rw [runSelect_cons]
    exact runSelect_gas_le maxB maxG hg0 rest _ (select_gas_le maxB maxG c.1 c.2 ts hg0 h)

/-! ## Claim theorems: selector invariants and functional behaviour -/

/-- Claim C1: starting from a cleared selector, after any sequence of
`SelectTxForProposal` calls with fixed budgets the byte total never
exceeds `maxTxBytes` and, when `maxBlockGas > 0`, the gas total never
exceeds `maxBlockGas`; when `maxBlockGas = 0` the decoded transaction
(hence its gas value) never influences the outcome of a call. -/
theorem C1_budget_invariants (maxB maxG : Nat)
    (calls : List (Option MemTx × ByteString)) (n : Nat) :
    (runSelect maxB maxG (calls.take n) Selector.clear).totalTxBytes ≤ maxB ∧
    (0 < maxG → (runSelect maxB maxG (calls.take n) Selector.clear).totalTxGas ≤ maxG) ∧
    (maxG = 0 → ∀ (m₁ m₂ : Option MemTx) (bz : ByteString) (ts : Selector),
      selectTxForProposal maxB maxG m₁ bz ts = selectTxForProposal maxB maxG m₂ bz ts) := by
  refine ⟨runSelect_bytes_le maxB maxG _ _ (Nat.zero_le _), ?_, ?_⟩
  · intro hg0
    exact runSelect_gas_le maxB maxG hg0 _ _ (Nat.zero_le _)
  · intro hz m₁ m₂ bz ts
    subst hz
    exact select_gas_irrelevant maxB m₁ m₂ bz ts

/-- Claim C4 (as stated) is false: with `maxBlockGas = 0` and a
candidate declaring positive gas, the candidate is admitted (the byte
condition and the `maxBlockGas == 0` disjunct hold) yet the running gas
total is not increased by its gas, so admission does not add "its size
and gas" to the running totals. -/
theorem C4_counterexample :
    (((selectTxForProposal 10 0 (some ⟨some 5, []⟩) [0] Selector.clear).1.selectedTxs =
        Selector.clear.selectedTxs ++ [[0]] ∧
      (selectTxForProposal 10 0 (some ⟨some 5, []⟩) [0] Selector.clear).1.totalTxBytes =
        (Selector.clear.totalTxBytes + 1) % U64 ∧
      (selectTxForProposal 10 0 (some ⟨some 5, []⟩) [0] Selector.clear).1.totalTxGas =
        (Selector.clear.totalTxGas + 5) % U64) ↔
      ((1 + 0) % U64 ≤ 10 ∧ ((0 : Nat) = 0 ∨ (5 + 0) % U64 ≤ 0))) ↔ False := by
  decide

/-- Claim C4 as amended: a call admits the candidate — appending it,
adding its size to the byte total and, when `maxBlockGas > 0`, its gas
to the gas total (all in `uint64` arithmetic) — iff the byte check and
(when `maxBlockGas > 0`) the gas check pass; and it returns `true` iff
after the decision the byte total has reached `maxTxBytes` or
(`maxBlockGas > 0` and) the gas total has reached `maxBlockGas`. -/
theorem C4_select_characterization (maxB maxG : Nat) (memTx : Option MemTx)
    (bz : ByteString) (ts : Selector) :
    (((selectTxForProposal maxB maxG memTx bz ts).1.selectedTxs =
        ts.selectedTxs ++ [bz] ∧
      (selectTxForProposal maxB maxG memTx bz ts).1.totalTxBytes =
        (ts.totalTxBytes + bz.length) % U64 ∧
      (selectTxForProposal maxB maxG memTx bz ts).1.totalTxGas =
        (if 0 < maxG then (ts.totalTxGas + gasLimit memTx) % U64 else ts.totalTxGas)) ↔
      ((bz.length + ts.totalTxBytes) % U64 ≤ maxB ∧
       (maxG = 0 ∨ (gasLimit memTx + ts.totalTxGas) % U64 ≤ maxG))) ∧
    ((selectTxForProposal maxB maxG memTx bz ts).2 = true ↔
      (maxB ≤ (selectTxForProposal maxB maxG memTx bz ts).1.totalTxBytes ∨
       (0 < maxG ∧ maxG ≤ (selectTxForProposal maxB maxG memTx bz ts).1.totalTxGas))) := by
  refine ⟨?_, select_snd_iff maxB maxG memTx bz ts⟩
  rw [select_fst_eq]
  split
  · rename_i hc
    exact iff_of_true ⟨rfl, rfl, rfl⟩ hc
  · rename_i hc
    refine iff_of_false (fun h => ?_) hc
    have := congrArg List.length h.1
    simp at this

/-- Claim C9: when the admission condition fails (the byte check, or
the gas check under a positive gas budget), the selector state is
returned completely unchanged. -/
theorem C9_skip_frame (maxB maxG : Nat) (memTx : Option MemTx) (bz : ByteString)
    (ts : Selector)
    (h : ¬ ((bz.length + ts.totalTxBytes) % U64 ≤ maxB ∧
            (maxG = 0 ∨ (gasLimit memTx + ts.totalTxGas) % U64 ≤ maxG))) :
    (selectTxForProposal maxB maxG memTx bz ts).1 = ts := by
  rw [select_fst_eq, if_neg h]

/-- Witness for `C9_skip_frame` at a concrete rejected candidate. -/
theorem C9_skip_frame_witness :
    (selectTxForProposal 0 0 none [7] Selector.clear).1 = Selector.clear :=
  C9_skip_frame 0 0 none [7] Selector.clear (by decide)

/-- Claim C7 (as stated) is false: with `maxTxBytes = 0` a zero-length
candidate is still admitted, so the selected list does not stay
empty. -/
theorem C7_counterexample :
    ((selectTxForProposal 0 0 none [] Selector.clear).1.selectedTxs =
        ([] : List ByteString) ∧
      (selectTxForProposal 0 0 none [] Selector.clear).1.totalTxBytes = 0 ∧
      (selectTxForProposal 0 0 none [] Selector.clear).1.totalTxGas = 0 ∧
      (selectTxForProposal 0 0 none [] Selector.clear).2 = true) ↔ False := by
  decide

/-- Claim C7 as amended: with `maxTxBytes = 0`, a first call admits no
candidate of nonzero length (the state stays cleared), the byte total
stays zero in every case, and the call returns `halt = true`. -/
theorem C7_zero_budget (maxG : Nat) (memTx : Option MemTx) (bz : ByteString)
    (hlen : bz.length < U64) :
    (selectTxForProposal 0 maxG memTx bz Selector.clear).2 = true ∧
    (selectTxForProposal 0 maxG memTx bz Selector.clear).1.totalTxBytes = 0 ∧
    (bz ≠ [] → (selectTxForProposal 0 maxG memTx bz Selector.clear).1 = Selector.clear) := by
  have hmod : (bz.length + Selector.clear.totalTxBytes) % U64 = bz.length := by
    simp [Selector.clear, Nat.mod_eq_of_lt hlen]
  have hbytes : (selectTxForProposal 0 maxG memTx bz Selector.clear).1.totalTxBytes = 0 := by
    rw [select_fst_eq]
    split
    · rename_i hc
      have h1 := hc.1
      have hlen0 : bz.length = 0 := by omega
      simp [Selector.clear, hlen0]
    · rfl
  refine ⟨?_, hbytes, ?_⟩
  · rw [select_snd_iff]
    exact Or.inl (by omega)
  · intro hne
    rw [select_fst_eq]
    split
    · rename_i hc
      have h1 := hc.1
      have hlen0 : bz.length = 0 := by omega
      exact absurd (List.length_eq_zero.mp hlen0) hne
    · rfl


/-- Witness for `C7_zero_budget` at a concrete nonzero-length candidate. -/
theorem C7_zero_budget_witness :
    (selectTxForProposal 0 3 (some ⟨some 2, []⟩) [9] Selector.clear).2 = true ∧
    (selectTxForProposal 0 3 (some ⟨some 2, []⟩) [9] Selector.clear).1.totalTxBytes = 0 ∧
    (([9] : ByteString) ≠ [] →
      (selectTxForProposal 0 3 (some ⟨some 2, []⟩) [9] Selector.clear).1 = Selector.clear) :=
  C7_zero_budget 3 (some ⟨some 2, []⟩) [9] (by decide)

/-! ## The process-proposal scan -/

/-- `processLoop` on a transaction that fails verification. -/
theorem processLoop_cons_fail (vP : ByteString → Option (Option Nat)) (g : Int)
    (t0 : Nat) (bz : ByteString) (rest : List ByteString) (hv : vP bz = none) :
    processLoop vP g t0 (bz :: rest) = .reject := by
  simp [processLoop, hv]

/-- `processLoop` on a verified transaction under a positive gas budget. -/
theorem processLoop_cons_pos (vP : ByteString → Option (Option Nat)) (g : Int)
    (t0 : Nat) (bz : ByteString) (rest : List ByteString) (gasOpt : Option Nat)
    (hv : vP bz = some gasOpt) (hg : 0 < g) :
    processLoop vP g t0 (bz :: rest) =
      if uint64OfInt g < newTotal t0 gasOpt then .reject
      else processLoop vP g (newTotal t0 gasOpt) rest := by
  simp [processLoop, hv, hg]

/-- `processLoop` on a verified transaction under a non-positive gas
budget: the gas accounting is skipped entirely. -/
theorem processLoop_cons_nonpos (vP : ByteString → Option (Option Nat)) (g : Int)
    (t0 : Nat) (bz : ByteString) (rest : List ByteString) (gasOpt : Option Nat)
    (hv : vP bz = some gasOpt) (hg : ¬ 0 < g) :
    processLoop vP g t0 (bz :: rest) = processLoop vP g t0 rest := by
  simp [processLoop, hv, hg]

/-- The validator's gas step agrees with the declared-gas description
whenever the running total is a genuine `uint64` value. -/
theorem newTotal_declGas (vP : ByteString → Option (Option Nat)) (bz : ByteString)
    (gasOpt : Option Nat) (t0 : Nat) (hv : vP bz = some gasOpt) (ht : t0 < U64) :
    newTotal t0 gasOpt = (t0 + declGas vP bz) % U64 := by
  cases gasOpt with
  | some g => simp [newTotal, declGas, hv]
  | none =>
    simp only [newTotal, declGas, hv, Nat.add_zero]
    simp only [U64_eq] at *
    omega

/-- Full characterization of the `ProcessProposal` scan: it accepts
iff every transaction verifies and (under a positive gas budget) every
running declared-gas total stays within `uint64(maxBlockGas)`. -/
theorem processLoop_accept_iff (vP : ByteString → Option (Option Nat)) (g : Int) :
    ∀ (txs : List ByteString) (t0 : Nat), t0 < U64 →
      (processLoop vP g t0 txs = .accept ↔
        ((∀ bz ∈ txs, (vP bz).isSome = true) ∧
         (0 < g → ∀ x ∈ gasTotals vP t0 txs, x ≤ uint64OfInt g)))
  | [], t0, ht => by simp [processLoop, gasTotals]
  | bz :: rest, t0, ht => by
    cases hv : vP bz with
    | none =>
      refine iff_of_false ?_ fun h => ?_
      · rw [processLoop_cons_fail vP g t0 bz rest hv]
        simp
      · have h1 := h.1 bz (List.mem_cons_self bz rest)
        rw [hv] at h1
        simp at h1
    | some gasOpt =>
      have htU : (t0 + declGas vP bz) % U64 < U64 := by
        simp only [U64_eq]
        omega
      by_cases hg : 0 < g
      · rw [processLoop_cons_pos vP g t0 bz rest gasOpt hv hg,
           newTotal_declGas vP bz gasOpt t0 hv ht]
        by_cases hlt : uint64OfInt g < (t0 + declGas vP bz) % U64
        · rw [if_pos hlt]
          refine iff_of_false (by simp) fun h => ?_
          have h2 := h.2 hg ((t0 + declGas vP bz) % U64) (by simp [gasTotals])
          omega
        · rw [if_neg hlt,
             processLoop_accept_iff vP g rest ((t0 + declGas vP bz) % U64) htU]
          constructor
          · rintro ⟨hall, hgas⟩
            refine ⟨fun b hb => ?_, fun hgpos x hx => ?_⟩
            · rcases List.mem_cons.mp hb with h | h
              · subst h
                rw [hv]
                rfl
              · exact hall b h
            · simp only [gasTotals, List.mem_cons] at hx
              rcases hx with h | h
              · omega
              · exact hgas hgpos x h
          · rintro ⟨hall, hgas⟩
            refine ⟨fun b hb => hall b (List.mem_cons_of_mem bz hb),
                    fun hgpos x hx => ?_⟩
            refine hgas hgpos x ?_
            simp only [gasTotals, List.mem_cons]
            exact Or.inr hx
      · rw [processLoop_cons_nonpos vP g t0 bz rest gasOpt hv hg,
           processLoop_accept_iff vP g rest t0 ht]
        constructor
        · rintro ⟨hall, _⟩
          refine ⟨fun b hb => ?_, fun hgpos => absurd hgpos hg⟩
          rcases List.mem_cons.mp hb with h | h
          · subst h
            rw [hv]
            rfl
          · exact hall b h
        · rintro ⟨hall, _⟩
          exact ⟨fun b hb => hall b (List.mem_cons_of_mem bz hb),
                 fun hgpos => absurd hgpos hg⟩

/-- Claim C5: with a real mempool, `ProcessProposalHandler` accepts
iff every received transaction verifies and, when the block gas budget
is positive, every running declared-gas total stays within the budget;
any verification failure or gas overrun yields REJECT. -/
theorem C5_process_characterization (vP : ByteString → Option (Option Nat))
    (g : Int) (pool : List MemTx) (txs : List ByteString) :
    processProposal (.real pool) vP (some g) txs = .accept ↔
      ((∀ bz ∈ txs, (vP bz).isSome = true) ∧
       (0 < g → ∀ x ∈ gasTotals vP 0 txs, x ≤ uint64OfInt g)) := by
  have h0 : (0 : Nat) < U64 := by
    simp only [U64_eq]
    omega
  simpa [processProposal] using processLoop_accept_iff vP g txs 0 h0

/-- Under a non-positive gas budget the validator scan ignores gas
entirely: it accepts iff every transaction verifies. -/
theorem processLoop_nonpos_iff (vP : ByteString → Option (Option Nat)) (g : Int)
    (hg : ¬ 0 < g) :
    ∀ (txs : List ByteString) (t0 : Nat),
      (processLoop vP g t0 txs = .accept ↔ ∀ bz ∈ txs, (vP bz).isSome = true)
  | [], t0 => by simp [processLoop]
  | bz :: rest, t0 => by
    cases hv : vP bz with
    | none =>
      refine iff_of_false ?_ fun h => ?_
      · rw [processLoop_cons_fail vP g t0 bz rest hv]
        simp
      · have h1 := h bz (List.mem_cons_self bz rest)
        rw [hv] at h1
        simp at h1
    | some gasOpt =>
      rw [processLoop_cons_nonpos vP g t0 bz rest gasOpt hv hg,
         processLoop_nonpos_iff vP g hg rest t0]
      constructor
      · intro hall b hb
        rcases List.mem_cons.mp hb with h | h
        · subst h
          rw [hv]
          rfl
        · exact hall b h
      · intro hall b hb
        exact hall b (List.mem_cons_of_mem bz hb)

/-- Claim C10: `PrepareProposalHandler` converts `Block.MaxGas` with
`uint64(...)`, so `-1` becomes `2 ^ 64 - 1` and every negative `int64`
value becomes a huge positive budget against which gas accounting runs;
`ProcessProposalHandler` keeps the `int64` value and its
`maxBlockGas > 0` guard skips the gas check for every non-positive
value; within the `int64` range the two sides agree on "gas unlimited"
exactly at `MaxGas = 0`. -/
theorem C10_negative_maxgas_divergence :
    prepareMaxBlockGas (some (-1)) = U64 - 1 ∧
    (∀ g : Int, -(2 ^ 63) ≤ g → g < 0 → 0 < prepareMaxBlockGas (some g)) ∧
    (∀ (vP : ByteString → Option (Option Nat)) (g : Int) (pool : List MemTx)
        (txs : List ByteString), g ≤ 0 →
      (processProposal (.real pool) vP (some g) txs = .accept ↔
        ∀ bz ∈ txs, (vP bz).isSome = true)) ∧
    (∀ g : Int, -(2 ^ 63) ≤ g → g < 2 ^ 63 →
      (prepareMaxBlockGas (some g) = 0 ↔ g = 0)) := by
  refine ⟨?_, ?_, ?_, ?_⟩
  · simp only [prepareMaxBlockGas, uint64OfInt, U64_eq]
    omega
  · intro g h1 h2
    simp only [prepareMaxBlockGas, uint64OfInt]
    omega
  · intro vP g pool txs hg
    have h := processLoop_nonpos_iff vP g (by omega) txs 0
    simpa [processProposal] using h
  · intro g h1 h2
    simp only [prepareMaxBlockGas, uint64OfInt]
    omega

/-! ## The no-op prepare path -/

/-- One step of the no-op loop. -/
theorem noOpPrepareLoop_cons (maxB maxG : Nat) (ts : Selector) (bz : ByteString)
    (rest : List ByteString) :
    noOpPrepareLoop maxB maxG ts (bz :: rest) =
      if (selectTxForProposal maxB maxG none bz ts).2
      then (selectTxForProposal maxB maxG none bz ts).1
      else noOpPrepareLoop maxB maxG (selectTxForProposal maxB maxG none bz ts).1 rest := rfl

/-- The no-op loop performs exactly the byte-budget greedy scan: with a
zero running gas total, gas never matters on this path. -/
theorem noOpLoop_greedy (maxB maxG : Nat) :
    ∀ (txs : List ByteString) (ts : Selector), ts.totalTxGas = 0 →
      (noOpPrepareLoop maxB maxG ts txs).selectedTxs =
        ts.selectedTxs ++ specGreedyBytes maxB ts.totalTxBytes txs
  | [], ts, hgas => by simp [noOpPrepareLoop, specGreedyBytes]
  | bz :: rest, ts, hgas => by
    rw [noOpPrepareLoop_cons]
    have hcond : ((bz.length + ts.totalTxBytes) % U64 ≤ maxB ∧
        (maxG = 0 ∨ (gasLimit (none : Option MemTx) + ts.totalTxGas) % U64 ≤ maxG)) ↔
        ((bz.length + ts.totalTxBytes) % U64 ≤ maxB) := by
      constructor
      · exact And.left
      · intro hb
        refine ⟨hb, ?_⟩
        rcases Nat.eq_zero_or_pos maxG with h | h
        · exact Or.inl h
        · exact Or.inr (by simp [gasLimit, hgas])
    by_cases hb : (bz.length + ts.totalTxBytes) % U64 ≤ maxB
    · have hsel : (selectTxForProposal maxB maxG none bz ts).1 =
          ⟨(ts.totalTxBytes + bz.length) % U64,
            if 0 < maxG then (ts.totalTxGas + gasLimit (none : Option MemTx)) % U64
            else ts.totalTxGas,
            ts.selectedTxs ++ [bz]⟩ := by
        rw [select_fst_eq, if_pos (hcond.mpr hb)]
      have hgas' : (selectTxForProposal maxB maxG none bz ts).1.totalTxGas = 0 := by
        rw [hsel]
        rcases Nat.eq_zero_or_pos maxG with h | h <;>
          simp [gasLimit, hgas, h, Nat.lt_irrefl]
      have hby : (selectTxForProposal maxB maxG none bz ts).1.totalTxBytes =
          (ts.totalTxBytes + bz.length) % U64 := by rw [hsel]
      have hhalt : (selectTxForProposal maxB maxG none bz ts).2 = true ↔
          maxB ≤ (ts.totalTxBytes + bz.length) % U64 := by
        rw [select_snd_iff, hby, hgas']
        constructor
        · rintro (h | ⟨h1, h2⟩)
          · exact h
          · omega
        · exact Or.inl
      by_cases hstop : maxB ≤ (ts.totalTxBytes + bz.length) % U64
      · rw [if_pos (hhalt.mpr hstop), hsel]
        simp [specGreedyBytes, hb, hstop]
      · have h2 : ¬ ((selectTxForProposal maxB maxG none bz ts).2 = true) :=
          fun h => hstop (hhalt.mp h)
        rw [if_neg h2, noOpLoop_greedy maxB maxG rest _ hgas', hsel]
        simp [specGreedyBytes, hb, hstop]
    · have hsel : (selectTxForProposal maxB maxG none bz ts).1 = ts := by
        rw [select_fst_eq, if_neg (fun hcc => hb (hcond.mp hcc))]
      have hhalt : (selectTxForProposal maxB maxG none bz ts).2 = true ↔
          maxB ≤ ts.totalTxBytes := by
        rw [select_snd_iff, hsel, hgas]
        constructor
        · rintro (h | ⟨h1, h2⟩)
          · exact h
          · omega
        · exact Or.inl
      by_cases hstop : maxB ≤ ts.totalTxBytes
      · rw [if_pos (hhalt.mpr hstop), hsel]
        simp [specGreedyBytes, hb, hstop]
      · have h2 : ¬ ((selectTxForProposal maxB maxG none bz ts).2 = true) :=
          fun h => hstop (hhalt.mp h)
        rw [if_neg h2, hsel, noOpLoop_greedy maxB maxG rest ts hgas]
        simp [specGreedyBytes, hb, hstop]

/-- Claim C6 (as stated) is false: with byte budget 10 and raw
candidates of sizes 5, 20 and 3, the no-op path skips the second
candidate but still admits the third, so the response is not the
longest byte-budget-limited prefix of the candidate list. -/
theorem C6_counterexample :
    (prepareProposal .noop (fun _ => none) none 10
        [List.replicate 5 0, List.replicate 20 0, List.replicate 3 0] =
      specLongestFit 10
        [List.replicate 5 0, List.replicate 20 0, List.replicate 3 0]) ↔ False := by
  decide

/-- Claim C6 as amended: with a nil or no-op mempool the response is
the byte-budget greedy selection over the raw candidates in their
original order — each candidate is admitted iff its size keeps the
running byte total within `maxTxBytes`, non-fitting candidates are
skipped while the scan continues, and the scan stops once the running
total reaches `maxTxBytes`; gas is not accounted on this path. -/
theorem C6_noop_greedy (verify : MemTx → Option ByteString) (block : Option Int)
    (maxTxBytesReq : Int) (txs : List ByteString) :
    prepareProposal .noop verify block maxTxBytesReq txs =
      specGreedyBytes (uint64OfInt maxTxBytesReq) 0 txs := by
  have h := noOpLoop_greedy (uint64OfInt maxTxBytesReq) (prepareMaxBlockGas block)
    txs Selector.clear rfl
  simpa [prepareProposal, Selector.clear] using h

/-! ## Association-list facts -/

/-- `aset` writes the requested key. -/
theorem alookup_aset_self (k v : Nat) :
    ∀ l : List (Nat × Nat), alookup k (aset k v l) = some v
  | [] => by simp [aset, alookup]
  | (k', v') :: rest => by
    by_cases h : k = k'
    · subst h
      simp [aset, alookup]
    · simp [aset, alookup, h, alookup_aset_self k v rest]

/-- `aset` leaves other keys alone. -/
theorem alookup_aset_ne (a k v : Nat) (hak : a ≠ k) :
    ∀ l : List (Nat × Nat), alookup a (aset k v l) = alookup a l
  | [] => by simp [aset, alookup, hak]
  | (k', v') :: rest => by
    by_cases h : k = k'
    · subst h
      simp [aset, alookup, hak]
    · by_cases h2 : a = k'
      · subst h2
        simp [aset, alookup, h]
      · simp [aset, alookup, h, h2, alookup_aset_ne a k v hak rest]

/-- A key outside the stored keys has no binding. -/
theorem alookup_eq_none (a : Nat) :
    ∀ l : List (Nat × Nat), a ∉ l.map Prod.fst → alookup a l = none
  | [], _ => rfl
  | (k, v) :: rest, h => by
    simp only [List.map_cons, List.mem_cons] at h
    push_neg at h
    simp [alookup, h.1, alookup_eq_none a rest h.2]

/-- Keys after an `aset` are the old keys, possibly with `k` added. -/
theorem mem_keys_aset (k v x : Nat) :
    ∀ l : List (Nat × Nat),
      x ∈ (aset k v l).map Prod.fst ↔ (x ∈ l.map Prod.fst ∨ x = k)
  | [] => by simp [aset]
  | (k', v') :: rest => by
    by_cases h : k = k'
    · subst h
      simp [aset]
      tauto
    · simp [aset, h, mem_keys_aset k v x rest]
      tauto

/-- `aset` preserves distinctness of keys. -/
theorem aset_keys_nodup (k v : Nat) :
    ∀ l : List (Nat × Nat),
      (l.map Prod.fst).Nodup → ((aset k v l).map Prod.fst).Nodup
  | [], _ => by simp [aset]
  | (k', v') :: rest, h => by
    simp only [List.map_cons, List.nodup_cons] at h
    by_cases hk : k = k'
    · subst hk
      simpa [aset, List.nodup_cons] using h
    · have hrest := aset_keys_nodup k v rest h.2
      have hk' : k' ∉ (aset k v rest).map Prod.fst := by
        rw [mem_keys_aset]
        rintro (hc | hc)
        · exact h.1 hc
        · exact hk hc.symm
      have hstep : aset k v ((k', v') :: rest) = (k', v') :: aset k v rest := by
        simp [aset, hk]
      rw [hstep, List.map_cons, List.nodup_cons]
      exact ⟨hk', hrest⟩

/-! ## Facts about the signature scan -/

/-- `lastSigSeq` produces the value of an actual pair of the list. -/
theorem lastSigSeq_mem (a : Nat) :
    ∀ (sigs : List (Nat × Nat)) (v : Nat), lastSigSeq a sigs = some v → (a, v) ∈ sigs
  | [], v, h => by simp [lastSigSeq] at h
  | (b, sq) :: rest, v, h => by
    simp only [lastSigSeq] at h
    cases hr : lastSigSeq a rest with
    | some w =>
      rw [hr] at h
      cases h
      exact List.mem_cons_of_mem _ (lastSigSeq_mem a rest v hr)
    | none =>
      rw [hr] at h
      by_cases hb : b = a
      · subst hb
        rw [if_pos rfl] at h
        cases h
        exact List.mem_cons_self _ _
      · rw [if_neg hb] at h
        exact absurd h (by simp)

/-- A successful signature scan stores, for each signer, the value of
that signer's last pair; signers with no pair keep their accumulator
binding. -/
theorem scanSigs_lookup (selSeqs : List (Nat × Nat)) :
    ∀ (sigs acc out : List (Nat × Nat)), scanSigs selSeqs acc sigs = some out →
      ∀ a, alookup a out =
        (match lastSigSeq a sigs with
         | some v => some v
         | none => alookup a acc)
  | [], acc, out, h, a => by
    simp only [scanSigs, Option.some.injEq] at h
    subst h
    simp [lastSigSeq]
  | (b, sq) :: rest, acc, out, h, a => by
    simp only [scanSigs] at h
    have key : scanSigs selSeqs (aset b sq acc) rest = some out := by
      cases hl : alookup b selSeqs with
      | none =>
        simp only [hl] at h
        exact h
      | some s =>
        simp only [hl] at h
        by_cases hif : (s + 1) % U64 = sq
        · rw [if_pos hif] at h
          exact h
        · rw [if_neg hif] at h
          exact absurd h (by simp)
    have ih := scanSigs_lookup selSeqs rest (aset b sq acc) out key a
    rw [ih]
    show (match lastSigSeq a rest with
          | some v => some v
          | none => alookup a (aset b sq acc)) =
        (match lastSigSeq a ((b, sq) :: rest) with
         | some v => some v
         | none => alookup a acc)
    cases hr : lastSigSeq a rest with
    | some w => simp [lastSigSeq, hr]
    | none =>
      by_cases hab : b = a
      · subst hab
        simp [lastSigSeq, hr, alookup_aset_self]
      · have : a ≠ b := fun hc => hab hc.symm
        simp [lastSigSeq, hr, hab, alookup_aset_ne a b sq this]

/-- In a successful scan, every pair whose signer is already recorded
with sequence `s` carries exactly sequence `s + 1` (mod `2 ^ 64`). -/
theorem scanSigs_seq_ok (selSeqs : List (Nat × Nat)) :
    ∀ (sigs acc out : List (Nat × Nat)), scanSigs selSeqs acc sigs = some out →
      ∀ b sq s, (b, sq) ∈ sigs → alookup b selSeqs = some s → sq = (s + 1) % U64
  | [], acc, out, h, b, sq, s, hmem, hlook => by simp at hmem
  | (c, sqc) :: rest, acc, out, h, b, sq, s, hmem, hlook => by
    simp only [scanSigs] at h
    cases hl : alookup c selSeqs with
    | none =>
      simp only [hl] at h
      rcases List.mem_cons.mp hmem with hh | hh
      · cases hh
        rw [hlook] at hl
        exact absurd hl (by simp)
      · exact scanSigs_seq_ok selSeqs rest (aset c sqc acc) out h b sq s hh hlook
    | some s' =>
      simp only [hl] at h
      by_cases hif : (s' + 1) % U64 = sqc
      · rw [if_pos hif] at h
        rcases List.mem_cons.mp hmem with hh | hh
        · cases hh
          rw [hlook] at hl
          cases hl
          exact hif.symm
        · exact scanSigs_seq_ok selSeqs rest (aset c sqc acc) out h b sq s hh hlook
      · rw [if_neg hif] at h
        exact absurd h (by simp)

/-- A pair whose signer is recorded with sequence `s` but whose own
sequence is not `s + 1` makes the whole scan fail. -/
theorem scanSigs_none_of_bad (selSeqs : List (Nat × Nat)) (sigs acc : List (Nat × Nat))
    (a sq s : Nat) (hmem : (a, sq) ∈ sigs) (hlook : alookup a selSeqs = some s)
    (hne : sq ≠ (s + 1) % U64) : scanSigs selSeqs acc sigs = none := by
  cases hs : scanSigs selSeqs acc sigs with
  | none => rfl
  | some out =>
    exact absurd (scanSigs_seq_ok selSeqs sigs acc out hs a sq s hmem hlook) hne

/-- A successful scan started from a distinct-keyed accumulator
produces a distinct-keyed signer map. -/
theorem scanSigs_nodup (selSeqs : List (Nat × Nat)) :
    ∀ (sigs acc out : List (Nat × Nat)), (acc.map Prod.fst).Nodup →
      scanSigs selSeqs acc sigs = some out → (out.map Prod.fst).Nodup
  | [], acc, out, hnd, h => by
    simp only [scanSigs, Option.some.injEq] at h
    subst h
    exact hnd
  | (b, sq) :: rest, acc, out, hnd, h => by
    simp only [scanSigs] at h
    have hnd' := aset_keys_nodup b sq acc hnd
    cases hl : alookup b selSeqs with
    | none =>
      simp only [hl] at h
      exact scanSigs_nodup selSeqs rest (aset b sq acc) out hnd' h
    | some s =>
      simp only [hl] at h
      by_cases hif : (s + 1) % U64 = sq
      · rw [if_pos hif] at h
        exact scanSigs_nodup selSeqs rest (aset b sq acc) out hnd' h
      · rw [if_neg hif] at h
        exact absurd h (by simp)

/-! ## Facts about the bookkeeping loop -/

/-- With equal counts (no admission), `commitSeqs` never overwrites an
existing binding. -/
theorem commitSeqs_lookup_preserve (t : Nat) :
    ∀ (txSeqs selSeqs : List (Nat × Nat)) (a s : Nat),
      alookup a selSeqs = some s →
      alookup a (commitSeqs t t txSeqs selSeqs) = some s
  | [], selSeqs, a, s, hs => hs
  | (b, sq) :: rest, selSeqs, a, s, hs => by
    simp only [commitSeqs, ne_eq, not_true_eq_false, if_false]
    cases hb : alookup b selSeqs with
    | some w =>
      simp only [hb]
      exact commitSeqs_lookup_preserve t rest selSeqs a s hs
    | none =>
      simp only [hb]
      have hab : a ≠ b := by
        intro hc
        subst hc
        rw [hs] at hb
        exact absurd hb (by simp)
      refine commitSeqs_lookup_preserve t rest _ a s ?_
      rw [alookup_aset_ne a b _ hab]
      exact hs

/-- `commitSeqs` leaves signers outside the transaction's map alone. -/
theorem commitSeqs_lookup_untouched (t k : Nat) :
    ∀ (txSeqs selSeqs : List (Nat × Nat)) (a : Nat),
      alookup a txSeqs = none →
      alookup a (commitSeqs t k txSeqs selSeqs) = alookup a selSeqs
  | [], selSeqs, a, h => rfl
  | (b, sq) :: rest, selSeqs, a, h => by
    simp only [alookup] at h
    have hab : a ≠ b := by
      intro hc
      rw [if_pos hc] at h
      exact absurd h (by simp)
    rw [if_neg hab] at h
    simp only [commitSeqs]
    by_cases ht : t ≠ k
    · rw [if_pos ht]
      rw [commitSeqs_lookup_untouched t k rest _ a h, alookup_aset_ne a b _ hab]
    · rw [if_neg ht]
      cases hb : alookup b selSeqs with
      | some w =>
        exact commitSeqs_lookup_untouched t k rest selSeqs a h
      | none =>
        rw [commitSeqs_lookup_untouched t k rest _ a h, alookup_aset_ne a b _ hab]

/-- With differing counts (a fresh admission), `commitSeqs` records
each signer's sequence from the transaction's map. -/
theorem commitSeqs_lookup_new (t k : Nat) (hne : t ≠ k) :
    ∀ (txSeqs selSeqs : List (Nat × Nat)) (a sq : Nat),
      (txSeqs.map Prod.fst).Nodup → alookup a txSeqs = some sq →
      alookup a (commitSeqs t k txSeqs selSeqs) = some sq
  | [], selSeqs, a, sq, hnd, h => by simp [alookup] at h
  | (b, sqb) :: rest, selSeqs, a, sq, hnd, h => by
    simp only [commitSeqs, if_pos hne]
    simp only [List.map_cons, List.nodup_cons] at hnd
    by_cases hab : a = b
    · subst hab
      have h' : sqb = sq := by simpa [alookup] using h
      subst h'
      have hrest : alookup a rest = none :=
        alookup_eq_none a rest hnd.1
      rw [commitSeqs_lookup_untouched t k rest _ a hrest]
      exact alookup_aset_self a sqb selSeqs
    · simp only [alookup, if_neg hab] at h
      exact commitSeqs_lookup_new t k hne rest _ a sq hnd.2 h

/-- With equal counts (budget rejection), `commitSeqs` records
`seq - 1` (in `uint64` arithmetic) for each signer of the transaction
not yet recorded. -/
theorem commitSeqs_lookup_reject (t : Nat) :
    ∀ (txSeqs selSeqs : List (Nat × Nat)) (a sq : Nat),
      (txSeqs.map Prod.fst).Nodup → alookup a txSeqs = some sq →
      alookup a selSeqs = none →
      alookup a (commitSeqs t t txSeqs selSeqs) = some ((sq + (U64 - 1)) % U64)
  | [], selSeqs, a, sq, hnd, h, ha => by simp [alookup] at h
  | (b, sqb) :: rest, selSeqs, a, sq, hnd, h, ha => by
    simp only [commitSeqs, ne_eq, not_true_eq_false, if_false]
    simp only [List.map_cons, List.nodup_cons] at hnd
    by_cases hab : a = b
    · subst hab
      have h' : sqb = sq := by simpa [alookup] using h
      subst h'
      simp only [ha]
      have hrest : alookup a rest = none := alookup_eq_none a rest hnd.1
      rw [commitSeqs_lookup_untouched t t rest _ a hrest]
      exact alookup_aset_self a _ selSeqs
    · simp only [alookup, if_neg hab] at h
      cases hb : alookup b selSeqs with
      | some w =>
        simp only [hb]
        exact commitSeqs_lookup_reject t rest selSeqs a sq hnd.2 h ha
      | none =>
        simp only [hb]
        refine commitSeqs_lookup_reject t rest _ a sq hnd.2 h ?_
        rw [alookup_aset_ne a b _ hab]
        exact ha

/-! ## Consecutive sequence lists -/

/-- Appending one value keeps a list consecutive iff the list was
consecutive and the value follows its last element. -/
theorem consecB_append_singleton (v : Nat) :
    ∀ l : List Nat, consecB (l ++ [v]) = true ↔
      (consecB l = true ∧ ∀ x, l.getLast? = some x → v = (x + 1) % U64)
  | [] => by simp [consecB]
  | [x] => by
    show ((v == (x + 1) % U64) && consecB [v]) = true ↔
      (consecB [x] = true ∧ ∀ z, [x].getLast? = some z → v = (z + 1) % U64)
    simp [consecB, List.getLast?]
  | x :: y :: t => by
    have ih := consecB_append_singleton v (y :: t)
    show ((y == (x + 1) % U64) && consecB ((y :: t) ++ [v])) = true ↔
      (((y == (x + 1) % U64) && consecB (y :: t)) = true ∧
       ∀ z, (x :: y :: t).getLast? = some z → v = (z + 1) % U64)
    rw [Bool.and_eq_true, Bool.and_eq_true, ih, List.getLast?_cons_cons]
    tauto

/-- `seqList` over an appended admission. -/
theorem seqList_append (a : Nat) (adm : List (MemTx × ByteString))
    (p : MemTx × ByteString) :
    seqList a (adm ++ [p]) =
      seqList a adm ++ (match lastSigSeq a p.1.sigs with
        | some v => [v]
        | none => []) := by
  simp only [seqList, List.filterMap_append]
  cases h : lastSigSeq a p.1.sigs <;> simp [List.filterMap, h]

/-! ## Unfolding the prepare loop -/

/-- The prepare loop skips a transaction whose signature scan fails. -/
theorem prepLoopG_cons_scanfail (maxB maxG : Nat) (verify : MemTx → Option ByteString)
    (m : MemTx) (rest : List MemTx) (selSeqs : List (Nat × Nat)) (selNums : Nat)
    (ts : Selector) (adm : List (MemTx × ByteString))
    (hscan : scanSigs selSeqs [] m.sigs = none) :
    prepLoopG maxB maxG verify (m :: rest) selSeqs selNums ts adm =
      prepLoopG maxB maxG verify rest selSeqs selNums ts adm := by
  simp [prepLoopG, hscan]

/-- The prepare loop skips a transaction that fails verification. -/
theorem prepLoopG_cons_verifyfail (maxB maxG : Nat) (verify : MemTx → Option ByteString)
    (m : MemTx) (rest : List MemTx) (selSeqs txSeqs : List (Nat × Nat)) (selNums : Nat)
    (ts : Selector) (adm : List (MemTx × ByteString))
    (hscan : scanSigs selSeqs [] m.sigs = some txSeqs) (hver : verify m = none) :
    prepLoopG maxB maxG verify (m :: rest) selSeqs selNums ts adm =
      prepLoopG maxB maxG verify rest selSeqs selNums ts adm := by
  simp [prepLoopG, hscan, hver]

/-- The prepare loop on a transaction that reaches the selector. -/
theorem prepLoopG_cons_sel (maxB maxG : Nat) (verify : MemTx → Option ByteString)
    (m : MemTx) (rest : List MemTx) (selSeqs txSeqs : List (Nat × Nat)) (selNums : Nat)
    (ts : Selector) (adm : List (MemTx × ByteString)) (bz : ByteString)
    (hscan : scanSigs selSeqs [] m.sigs = some txSeqs) (hver : verify m = some bz) :
    prepLoopG maxB maxG verify (m :: rest) selSeqs selNums ts adm =
      (if (selectTxForProposal maxB maxG (some m) bz ts).2
       then ((selectTxForProposal maxB maxG (some m) bz ts).1,
             if (selectTxForProposal maxB maxG (some m) bz ts).1.selectedTxs.length ≠
                ts.selectedTxs.length
             then adm ++ [(m, bz)] else adm)
       else prepLoopG maxB maxG verify rest
         (commitSeqs (selectTxForProposal maxB maxG (some m) bz ts).1.selectedTxs.length
           selNums txSeqs selSeqs)
         (selectTxForProposal maxB maxG (some m) bz ts).1.selectedTxs.length
         (selectTxForProposal maxB maxG (some m) bz ts).1
         (if (selectTxForProposal maxB maxG (some m) bz ts).1.selectedTxs.length ≠
             ts.selectedTxs.length
          then adm ++ [(m, bz)] else adm)) := by
  simp only [prepLoopG, hscan, hver]

/-- `prepLoop` steps, for relating the ghost loop to the plain one. -/
theorem prepLoop_cons_skip (maxB maxG : Nat) (verify : MemTx → Option ByteString)
    (m : MemTx) (rest : List MemTx) (selSeqs : List (Nat × Nat)) (selNums : Nat)
    (ts : Selector)
    (h : scanSigs selSeqs [] m.sigs = none ∨
      (∃ txSeqs, scanSigs selSeqs [] m.sigs = some txSeqs ∧ verify m = none)) :
    prepLoop maxB maxG verify (m :: rest) selSeqs selNums ts =
      prepLoop maxB maxG verify rest selSeqs selNums ts := by
  rcases h with h | ⟨txSeqs, hscan, hver⟩
  · simp [prepLoop, h]
  · simp [prepLoop, hscan, hver]

/-- `prepLoop` on a transaction that reaches the selector. -/
theorem prepLoop_cons_sel (maxB maxG : Nat) (verify : MemTx → Option ByteString)
    (m : MemTx) (rest : List MemTx) (selSeqs txSeqs : List (Nat × Nat)) (selNums : Nat)
    (ts : Selector) (bz : ByteString)
    (hscan : scanSigs selSeqs [] m.sigs = some txSeqs) (hver : verify m = some bz) :
    prepLoop maxB maxG verify (m :: rest) selSeqs selNums ts =
      (if (selectTxForProposal maxB maxG (some m) bz ts).2
       then (selectTxForProposal maxB maxG (some m) bz ts).1
       else prepLoop maxB maxG verify rest
         (commitSeqs (selectTxForProposal maxB maxG (some m) bz ts).1.selectedTxs.length
           selNums txSeqs selSeqs)
         (selectTxForProposal maxB maxG (some m) bz ts).1.selectedTxs.length
         (selectTxForProposal maxB maxG (some m) bz ts).1) := by
  simp only [prepLoop, hscan, hver]

/-- The ghost loop computes the same selector as the plain loop. -/
theorem prepLoopG_fst (maxB maxG : Nat) (verify : MemTx → Option ByteString) :
    ∀ (pool : List MemTx) (selSeqs : List (Nat × Nat)) (selNums : Nat)
      (ts : Selector) (adm : List (MemTx × ByteString)),
      (prepLoopG maxB maxG verify pool selSeqs selNums ts adm).1 =
        prepLoop maxB maxG verify pool selSeqs selNums ts
  | [], _, _, _, _ => rfl
  | m :: rest, selSeqs, selNums, ts, adm => by
    cases hscan : scanSigs selSeqs [] m.sigs with
    | none =>
      rw [prepLoopG_cons_scanfail maxB maxG verify m rest selSeqs selNums ts adm hscan,
         prepLoop_cons_skip maxB maxG verify m rest selSeqs selNums ts (Or.inl hscan)]
      exact prepLoopG_fst maxB maxG verify rest selSeqs selNums ts adm
    | some txSeqs =>
      cases hver : verify m with
      | none =>
        rw [prepLoopG_cons_verifyfail maxB maxG verify m rest selSeqs txSeqs selNums ts
             adm hscan hver,
           prepLoop_cons_skip maxB maxG verify m rest selSeqs selNums ts
             (Or.inr ⟨txSeqs, hscan, hver⟩)]
        exact prepLoopG_fst maxB maxG verify rest selSeqs selNums ts adm
      | some bz =>
        rw [prepLoopG_cons_sel maxB maxG verify m rest selSeqs txSeqs selNums ts adm bz
             hscan hver,
           prepLoop_cons_sel maxB maxG verify m rest selSeqs txSeqs selNums ts bz
             hscan hver]
        by_cases hstop : (selectTxForProposal maxB maxG (some m) bz ts).2 = true
        · rw [if_pos hstop, if_pos hstop]
        · rw [if_neg hstop, if_neg hstop]
          exact prepLoopG_fst maxB maxG verify rest _ _ _ _

/-- The selector either skips (returning the state unchanged) or
admits, with the admission update and a satisfied gas check. -/
theorem select_admit_or_skip (maxB maxG : Nat) (memTx : Option MemTx)
    (bz : ByteString) (ts : Selector) :
    (selectTxForProposal maxB maxG memTx bz ts).1 = ts ∨
    ((selectTxForProposal maxB maxG memTx bz ts).1.selectedTxs = ts.selectedTxs ++ [bz] ∧
     (selectTxForProposal maxB maxG memTx bz ts).1.totalTxBytes =
       (ts.totalTxBytes + bz.length) % U64 ∧
     (selectTxForProposal maxB maxG memTx bz ts).1.totalTxGas =
       (if 0 < maxG then (ts.totalTxGas + gasLimit memTx) % U64 else ts.totalTxGas) ∧
     (0 < maxG → (gasLimit memTx + ts.totalTxGas) % U64 ≤ maxG)) := by
  rw [select_fst_eq]
  split
  · rename_i hc
    right
    refine ⟨rfl, rfl, rfl, fun hg0 => ?_⟩
    rcases hc.2 with hz | hgas
    · omega
    · exact hgas
  · exact Or.inl rfl

/-- Every pair the ghost loop records was verified to its encoding. -/
theorem prepLoopG_verified (maxB maxG : Nat) (verify : MemTx → Option ByteString) :
    ∀ (pool : List MemTx) (selSeqs : List (Nat × Nat)) (selNums : Nat)
      (ts : Selector) (adm : List (MemTx × ByteString)),
      (∀ p ∈ adm, verify p.1 = some p.2) →
      ∀ p ∈ (prepLoopG maxB maxG verify pool selSeqs selNums ts adm).2,
        verify p.1 = some p.2
  | [], _, _, _, adm, h => h
  | m :: rest, selSeqs, selNums, ts, adm, h => by
    cases hscan : scanSigs selSeqs [] m.sigs with
    | none =>
      rw [prepLoopG_cons_scanfail maxB maxG verify m rest selSeqs selNums ts adm hscan]
      exact prepLoopG_verified maxB maxG verify rest selSeqs selNums ts adm h
    | some txSeqs =>
      cases hver : verify m with
      | none =>
        rw [prepLoopG_cons_verifyfail maxB maxG verify m rest selSeqs txSeqs selNums ts
             adm hscan hver]
        exact prepLoopG_verified maxB maxG verify rest selSeqs selNums ts adm h
      | some bz =>
        rw [prepLoopG_cons_sel maxB maxG verify m rest selSeqs txSeqs selNums ts adm bz
             hscan hver]
        have hadm' : ∀ p ∈ (if (selectTxForProposal maxB maxG (some m) bz ts).1.selectedTxs.length ≠
              ts.selectedTxs.length then adm ++ [(m, bz)] else adm),
            verify p.1 = some p.2 := by
          split
          · intro p hp
            rcases List.mem_append.mp hp with hp | hp
            · exact h p hp
            · simp only [List.mem_singleton] at hp
              subst hp
              exact hver
          · exact h
        by_cases hstop : (selectTxForProposal maxB maxG (some m) bz ts).2 = true
        · rw [if_pos hstop]
          exact hadm'
        · rw [if_neg hstop]
          exact prepLoopG_verified maxB maxG verify rest _ _ _ _ hadm'

/-- The selector's selected list is the ghost admissions' encodings. -/
theorem prepLoopG_selected (maxB maxG : Nat) (verify : MemTx → Option ByteString) :
    ∀ (pool : List MemTx) (selSeqs : List (Nat × Nat)) (selNums : Nat)
      (ts : Selector) (adm : List (MemTx × ByteString)),
      ts.selectedTxs = adm.map Prod.snd →
      (prepLoopG maxB maxG verify pool selSeqs selNums ts adm).1.selectedTxs =
        ((prepLoopG maxB maxG verify pool selSeqs selNums ts adm).2).map Prod.snd
  | [], _, _, _, _, h => h
  | m :: rest, selSeqs, selNums, ts, adm, h => by
    cases hscan : scanSigs selSeqs [] m.sigs with
    | none =>
      rw [prepLoopG_cons_scanfail maxB maxG verify m rest selSeqs selNums ts adm hscan]
      exact prepLoopG_selected maxB maxG verify rest selSeqs selNums ts adm h
    | some txSeqs =>
      cases hver : verify m with
      | none =>
        rw [prepLoopG_cons_verifyfail maxB maxG verify m rest selSeqs txSeqs selNums ts
             adm hscan hver]
        exact prepLoopG_selected maxB maxG verify rest selSeqs selNums ts adm h
      | some bz =>
        rw [prepLoopG_cons_sel maxB maxG verify m rest selSeqs txSeqs selNums ts adm bz
             hscan hver]
        rcases select_admit_or_skip maxB maxG (some m) bz ts with hskip | hadm
        · have hcond : ¬ ((selectTxForProposal maxB maxG (some m) bz ts).1.selectedTxs.length ≠
              ts.selectedTxs.length) := by
            rw [hskip]
            omega
          rw [if_neg hcond]
          by_cases hstop : (selectTxForProposal maxB maxG (some m) bz ts).2 = true
          · rw [if_pos hstop]
            show (selectTxForProposal maxB maxG (some m) bz ts).1.selectedTxs =
              adm.map Prod.snd
            rw [hskip]
            exact h
          · rw [if_neg hstop]
            refine prepLoopG_selected maxB maxG verify rest _ _ _ _ ?_
            rw [hskip]
            exact h
        · have hcond : (selectTxForProposal maxB maxG (some m) bz ts).1.selectedTxs.length ≠
              ts.selectedTxs.length := by
            rw [hadm.1]
            simp
          rw [if_pos hcond]
          have hnew : (selectTxForProposal maxB maxG (some m) bz ts).1.selectedTxs =
              (adm ++ [(m, bz)]).map Prod.snd := by
            rw [hadm.1, h]
            simp
          by_cases hstop : (selectTxForProposal maxB maxG (some m) bz ts).2 = true
          · rw [if_pos hstop]
            exact hnew
          · rw [if_neg hstop]
            exact prepLoopG_selected maxB maxG verify rest _ _ _ _ hnew

/-- Main invariant of the prepare loop: provided the signer map
records, for each signer with admitted transactions, the sequence of
that signer's latest admitted transaction, every signer's admitted
sequences form a consecutive chain — and remain so for the rest of the
scan. -/
theorem prepLoopG_consec (maxB maxG : Nat) (verify : MemTx → Option ByteString) :
    ∀ (pool : List MemTx) (selSeqs : List (Nat × Nat)) (selNums : Nat)
      (ts : Selector) (adm : List (MemTx × ByteString)),
      selNums = ts.selectedTxs.length →
      (∀ a, consecB (seqList a adm) = true ∧
        ∀ L, (seqList a adm).getLast? = some L → alookup a selSeqs = some L) →
      ∀ a, consecB (seqList a
        (prepLoopG maxB maxG verify pool selSeqs selNums ts adm).2) = true
  | [], selSeqs, selNums, ts, adm, hn, hinv => fun a => (hinv a).1
  | m :: rest, selSeqs, selNums, ts, adm, hn, hinv => by
    cases hscan : scanSigs selSeqs [] m.sigs with
    | none =>
      rw [prepLoopG_cons_scanfail maxB maxG verify m rest selSeqs selNums ts adm hscan]
      exact prepLoopG_consec maxB maxG verify rest selSeqs selNums ts adm hn hinv
    | some txSeqs =>
      cases hver : verify m with
      | none =>
        rw [prepLoopG_cons_verifyfail maxB maxG verify m rest selSeqs txSeqs selNums ts
             adm hscan hver]
        exact prepLoopG_consec maxB maxG verify rest selSeqs selNums ts adm hn hinv
      | some bz =>
        rw [prepLoopG_cons_sel maxB maxG verify m rest selSeqs txSeqs selNums ts adm bz
             hscan hver]
        have hnodup : (txSeqs.map Prod.fst).Nodup :=
          scanSigs_nodup selSeqs m.sigs [] txSeqs (by simp) hscan
        rcases select_admit_or_skip maxB maxG (some m) bz ts with hskip | hadm
        · -- budget rejection: the admitted list is unchanged and existing
          -- bindings are never overwritten
          have hcond : ¬ ((selectTxForProposal maxB maxG (some m) bz ts).1.selectedTxs.length ≠
              ts.selectedTxs.length) := by
            rw [hskip]
            omega
          rw [if_neg hcond]
          by_cases hstop : (selectTxForProposal maxB maxG (some m) bz ts).2 = true
          · rw [if_pos hstop]
            exact fun a => (hinv a).1
          · rw [if_neg hstop, hskip, ← hn]
            refine prepLoopG_consec maxB maxG verify rest _ _ _ _ hn fun a => ?_
            refine ⟨(hinv a).1, fun L hL => ?_⟩
            exact commitSeqs_lookup_preserve selNums txSeqs selSeqs a L ((hinv a).2 L hL)
        · -- admission: append the transaction and commit its signer map
          have hlen : (selectTxForProposal maxB maxG (some m) bz ts).1.selectedTxs.length =
              ts.selectedTxs.length + 1 := by
            rw [hadm.1]
            simp
          have hcond : (selectTxForProposal maxB maxG (some m) bz ts).1.selectedTxs.length ≠
              ts.selectedTxs.length := by omega
          have htk : (selectTxForProposal maxB maxG (some m) bz ts).1.selectedTxs.length ≠
              selNums := by omega
          rw [if_pos hcond]
          have hinv' : ∀ a, consecB (seqList a (adm ++ [(m, bz)])) = true ∧
              ∀ L, (seqList a (adm ++ [(m, bz)])).getLast? = some L →
                alookup a (commitSeqs
                  (selectTxForProposal maxB maxG (some m) bz ts).1.selectedTxs.length
                  selNums txSeqs selSeqs) = some L := by
            intro a
            cases hlast : lastSigSeq a m.sigs with
            | none =>
              have hseq : seqList a (adm ++ [(m, bz)]) = seqList a adm := by
                rw [seqList_append]
                simp [hlast]
              have htx : alookup a txSeqs = none := by
                rw [scanSigs_lookup selSeqs m.sigs [] txSeqs hscan a, hlast]
                rfl
              rw [hseq]
              refine ⟨(hinv a).1, fun L hL => ?_⟩
              rw [commitSeqs_lookup_untouched _ _ txSeqs selSeqs a htx]
              exact (hinv a).2 L hL
            | some v =>
              have htx : alookup a txSeqs = some v := by
                rw [scanSigs_lookup selSeqs m.sigs [] txSeqs hscan a, hlast]
              have hseq : seqList a (adm ++ [(m, bz)]) = seqList a adm ++ [v] := by
                rw [seqList_append]
                simp [hlast]
              rw [hseq]
              constructor
              · rw [consecB_append_singleton]
                refine ⟨(hinv a).1, fun x hx => ?_⟩
                have hsel : alookup a selSeqs = some x := (hinv a).2 x hx
                have hmem : (a, v) ∈ m.sigs := lastSigSeq_mem a m.sigs v hlast
                exact scanSigs_seq_ok selSeqs m.sigs [] txSeqs hscan a v x hmem hsel
              · intro L hL
                rw [List.getLast?_concat] at hL
                cases hL
                exact commitSeqs_lookup_new _ selNums htk txSeqs selSeqs a v hnodup htx
          by_cases hstop : (selectTxForProposal maxB maxG (some m) bz ts).2 = true
          · rw [if_pos hstop]
            exact fun a => (hinv' a).1
          · rw [if_neg hstop]
            exact prepLoopG_consec maxB maxG verify rest _ _ _ _ rfl hinv'

/-- Claim C2: with a real mempool, the handler's response is the list
of ghost-admitted transactions' encodings; for every signer the
sequences recorded across admitted transactions form a strictly
consecutive chain (each exactly the previous plus one, in `uint64`
arithmetic); and a candidate carrying a pair whose sequence is not the
recorded sequence plus one for an already-recorded signer is skipped
while the scan continues with the next candidate. -/
theorem C2_sequence_law (maxB maxG : Nat) (verify : MemTx → Option ByteString)
    (pool rest : List MemTx) (m : MemTx) (selSeqs : List (Nat × Nat))
    (selNums : Nat) (ts : Selector) (adm : List (MemTx × ByteString))
    (a s sq : Nat) (block : Option Int) (maxTxBytesReq : Int)
    (reqTxs : List ByteString) :
    (prepareProposal (.real pool) verify block maxTxBytesReq reqTxs =
      ((prepLoopG (uint64OfInt maxTxBytesReq) (prepareMaxBlockGas block) verify pool
          [] 0 Selector.clear []).2).map Prod.snd) ∧
    (∀ b, consecB (seqList b
      (prepLoopG maxB maxG verify pool [] 0 Selector.clear []).2) = true) ∧
    ((a, sq) ∈ m.sigs → alookup a selSeqs = some s → sq ≠ (s + 1) % U64 →
      prepLoopG maxB maxG verify (m :: rest) selSeqs selNums ts adm =
        prepLoopG maxB maxG verify rest selSeqs selNums ts adm) := by
  refine ⟨?_, ?_, ?_⟩
  · show (prepLoop (uint64OfInt maxTxBytesReq) (prepareMaxBlockGas block) verify pool
        [] 0 Selector.clear).selectedTxs = _
    rw [← prepLoopG_fst (uint64OfInt maxTxBytesReq) (prepareMaxBlockGas block) verify
          pool [] 0 Selector.clear []]
    exact prepLoopG_selected _ _ verify pool [] 0 Selector.clear [] rfl
  · refine prepLoopG_consec maxB maxG verify pool [] 0 Selector.clear [] rfl fun b => ?_
    exact ⟨rfl, fun L hL => by simp [seqList] at hL⟩
  · intro hmem hlook hne
    exact prepLoopG_cons_scanfail maxB maxG verify m rest selSeqs selNums ts adm
      (scanSigs_none_of_bad selSeqs m.sigs [] a sq s hmem hlook hne)

/-- Claim C8: when a candidate passes the signer-sequence check and
verification but the selector rejects it on budget (without halting),
the scan continues with the bookkeeping map in which each signer of
the candidate is recorded at its sequence minus one (in `uint64`
arithmetic): a previously unrecorded signer is set to `seq - 1`, and
an already-recorded signer's value both already equals `seq - 1` and
is left unchanged; moreover the bookkeeping never breaks the
consecutive-sequence law of the admitted transactions. -/
theorem C8_reject_bookkeeping (maxB maxG : Nat) (verify : MemTx → Option ByteString)
    (pool rest : List MemTx) (m : MemTx) (selSeqs txSeqs : List (Nat × Nat))
    (selNums : Nat) (ts : Selector) (adm : List (MemTx × ByteString))
    (bz : ByteString) :
    ((scanSigs selSeqs [] m.sigs = some txSeqs) →
     verify m = some bz →
     (selectTxForProposal maxB maxG (some m) bz ts).1 = ts →
     (selectTxForProposal maxB maxG (some m) bz ts).2 = false →
     selNums = ts.selectedTxs.length →
     (prepLoopG maxB maxG verify (m :: rest) selSeqs selNums ts adm =
        prepLoopG maxB maxG verify rest (commitSeqs selNums selNums txSeqs selSeqs)
          selNums ts adm) ∧
     (∀ a sq, alookup a txSeqs = some sq →
        (alookup a selSeqs = none →
          alookup a (commitSeqs selNums selNums txSeqs selSeqs) =
            some ((sq + (U64 - 1)) % U64)) ∧
        (∀ s, alookup a selSeqs = some s → s < U64 →
          s = (sq + (U64 - 1)) % U64 ∧
          alookup a (commitSeqs selNums selNums txSeqs selSeqs) = some s))) ∧
    (∀ b, consecB (seqList b
      (prepLoopG maxB maxG verify pool [] 0 Selector.clear []).2) = true) := by
  constructor
  · intro hscan hver hskip hstop hn
    have hnodup : (txSeqs.map Prod.fst).Nodup :=
      scanSigs_nodup selSeqs m.sigs [] txSeqs (by simp) hscan
    have hstop' : ¬ ((selectTxForProposal maxB maxG (some m) bz ts).2 = true) := by
      simp [hstop]
    constructor
    · rw [prepLoopG_cons_sel maxB maxG verify m rest selSeqs txSeqs selNums ts adm bz
           hscan hver]
      have hcond : ¬ ((selectTxForProposal maxB maxG (some m) bz ts).1.selectedTxs.length ≠
          ts.selectedTxs.length) := by
        rw [hskip]
        omega
      rw [if_neg hstop', if_neg hcond, hskip, ← hn]
    · intro a sq htx
      constructor
      · intro hnone
        exact commitSeqs_lookup_reject selNums txSeqs selSeqs a sq hnodup htx hnone
      · intro s hs hslt
        have hl := scanSigs_lookup selSeqs m.sigs [] txSeqs hscan a
        rw [htx] at hl
        have hmem : (a, sq) ∈ m.sigs := by
          cases hlast : lastSigSeq a m.sigs with
          | none =>
            rw [hlast] at hl
            exact absurd hl (by simp [alookup])
          | some v =>
            rw [hlast] at hl
            cases hl
            exact lastSigSeq_mem a m.sigs sq hlast
        have hseqok : sq = (s + 1) % U64 :=
          scanSigs_seq_ok selSeqs m.sigs [] txSeqs hscan a sq s hmem hs
        constructor
        · subst hseqok
          simp only [U64_eq] at *
          omega
        · exact commitSeqs_lookup_preserve selNums txSeqs selSeqs a s hs
  · refine prepLoopG_consec maxB maxG verify pool [] 0 Selector.clear [] rfl fun b => ?_
    exact ⟨rfl, fun L hL => by simp [seqList] at hL⟩

/-! ## Gas accounting across builder and validator -/

/-- `wsum` over an appended element. -/
theorem wsum_append_single (t g : Nat) (gs : List Nat) :
    wsum t (gs ++ [g]) = (wsum t gs + g) % U64 := by
  simp [wsum, List.foldl_append]

/-- `admTotals` over an appended admission. -/
theorem admTotals_append_single :
    ∀ (l : List (MemTx × ByteString)) (t : Nat) (p : MemTx × ByteString),
      admTotals t (l ++ [p]) =
        admTotals t l ++ [(wsum t (l.map admGas) + admGas p) % U64]
  | [], t, p => by simp [admTotals, wsum]
  | q :: rest, t, p => by
    show (t + admGas q) % U64 :: admTotals ((t + admGas q) % U64) (rest ++ [p]) =
      ((t + admGas q) % U64 :: admTotals ((t + admGas q) % U64) rest) ++
        [(wsum t ((q :: rest).map admGas) + admGas p) % U64]
    rw [admTotals_append_single rest ((t + admGas q) % U64) p]
    rfl

/-- With matching verifier verdicts and gas attributions, the
validator's running totals over the admitted encodings are exactly the
builder-side admitted gas totals. -/
theorem gasTotals_eq_admTotals (verifyP : ByteString → Option (Option Nat)) :
    ∀ (l : List (MemTx × ByteString)) (t : Nat),
      (∀ p ∈ l, verifyP p.2 = some p.1.gas) →
      gasTotals verifyP t (l.map Prod.snd) = admTotals t l
  | [], t, h => rfl
  | p :: rest, t, h => by
    have hp := h p (List.mem_cons_self p rest)
    have hdecl : declGas verifyP p.2 = admGas p := by
      simp only [declGas, hp]
      cases hg : p.1.gas <;> simp [admGas, gasLimit, hg]
    simp only [List.map_cons, gasTotals, admTotals, hdecl]
    rw [gasTotals_eq_admTotals verifyP rest ((t + admGas p) % U64)
          (fun q hq => h q (List.mem_cons_of_mem p hq))]

/-- Under a positive gas budget, every admitted-gas running total of
the prepare loop stays within the budget. -/
theorem prepLoopG_gas (maxB maxG : Nat) (verify : MemTx → Option ByteString)
    (hg0 : 0 < maxG) :
    ∀ (pool : List MemTx) (selSeqs : List (Nat × Nat)) (selNums : Nat)
      (ts : Selector) (adm : List (MemTx × ByteString)),
      ts.totalTxGas = wsum 0 (adm.map admGas) →
      (∀ x ∈ admTotals 0 adm, x ≤ maxG) →
      ∀ x ∈ admTotals 0 (prepLoopG maxB maxG verify pool selSeqs selNums ts adm).2,
        x ≤ maxG
  | [], _, _, ts, adm, hts, htot => htot
  | m :: rest, selSeqs, selNums, ts, adm, hts, htot => by
    cases hscan : scanSigs selSeqs [] m.sigs with
    | none =>
      rw [prepLoopG_cons_scanfail maxB maxG verify m rest selSeqs selNums ts adm hscan]
      exact prepLoopG_gas maxB maxG verify hg0 rest selSeqs selNums ts adm hts htot
    | some txSeqs =>
      cases hver : verify m with
      | none =>
        rw [prepLoopG_cons_verifyfail maxB maxG verify m rest selSeqs txSeqs selNums ts
             adm hscan hver]
        exact prepLoopG_gas maxB maxG verify hg0 rest selSeqs selNums ts adm hts htot
      | some bz =>
        rw [prepLoopG_cons_sel maxB maxG verify m rest selSeqs txSeqs selNums ts adm bz
             hscan hver]
        rcases select_admit_or_skip maxB maxG (some m) bz ts with hskip | hadm
        · have hcond : ¬ ((selectTxForProposal maxB maxG (some m) bz ts).1.selectedTxs.length ≠
              ts.selectedTxs.length) := by
            rw [hskip]
            omega
          rw [if_neg hcond]
          by_cases hstop : (selectTxForProposal maxB maxG (some m) bz ts).2 = true
          · rw [if_pos hstop]
            exact htot
          · rw [if_neg hstop, hskip]
            exact prepLoopG_gas maxB maxG verify hg0 rest _ _ ts adm hts htot
        · have hcond : (selectTxForProposal maxB maxG (some m) bz ts).1.selectedTxs.length ≠
              ts.selectedTxs.length := by
            rw [hadm.1]
            simp
          rw [if_pos hcond]
          have hnewtot : ∀ x ∈ admTotals 0 (adm ++ [(m, bz)]), x ≤ maxG := by
            rw [admTotals_append_single]
            intro x hx
            rcases List.mem_append.mp hx with hx | hx
            · exact htot x hx
            · simp only [List.mem_singleton] at hx
              subst hx
              rw [← hts, Nat.add_comm]
              exact hadm.2.2.2 hg0
          have hts' : (selectTxForProposal maxB maxG (some m) bz ts).1.totalTxGas =
              wsum 0 ((adm ++ [(m, bz)]).map admGas) := by
            rw [hadm.2.2.1, if_pos hg0, List.map_append]
            rw [show (([(m, bz)] : List (MemTx × ByteString)).map admGas) =
                  [admGas (m, bz)] from rfl]
            rw [wsum_append_single, ← hts]
            rfl
          by_cases hstop : (selectTxForProposal maxB maxG (some m) bz ts).2 = true
          · rw [if_pos hstop]
            exact hnewtot
          · rw [if_neg hstop]
            exact prepLoopG_gas maxB maxG verify hg0 rest _ _ _ _ hts' hnewtot

/-- Claim C3: under identical consensus parameters (an `int64`
`Block.MaxGas`), the same mempool configuration, and verifiers with
identical verdicts and gas attributions on both sides, every response
of `PrepareProposalHandler`, fed to `ProcessProposalHandler`, is
accepted; with a nil or no-op mempool the validator accepts
unconditionally. -/
theorem C3_builder_validator_symmetry (mp : Mempool)
    (verify : MemTx → Option ByteString)
    (verifyP : ByteString → Option (Option Nat)) (block : Option Int)
    (maxTxBytesReq : Int) (reqTxs : List ByteString)
    (hsym : ∀ (m : MemTx) (bz : ByteString), verify m = some bz →
      verifyP bz = some m.gas)
    (hrange : ∀ g : Int, block = some g → -(2 ^ 63) ≤ g ∧ g < 2 ^ 63) :
    processProposal mp verifyP block
      (prepareProposal mp verify block maxTxBytesReq reqTxs) = .accept := by
  cases mp with
  | noop => rfl
  | real pool =>
    have hresp : prepareProposal (.real pool) verify block maxTxBytesReq reqTxs =
        ((prepLoopG (uint64OfInt maxTxBytesReq) (prepareMaxBlockGas block) verify pool
            [] 0 Selector.clear []).2).map Prod.snd := by
      show (prepLoop (uint64OfInt maxTxBytesReq) (prepareMaxBlockGas block) verify pool
          [] 0 Selector.clear).selectedTxs = _
      rw [← prepLoopG_fst (uint64OfInt maxTxBytesReq) (prepareMaxBlockGas block) verify
            pool [] 0 Selector.clear []]
      exact prepLoopG_selected _ _ verify pool [] 0 Selector.clear [] rfl
    have hverall : ∀ p ∈ (prepLoopG (uint64OfInt maxTxBytesReq)
        (prepareMaxBlockGas block) verify pool [] 0 Selector.clear []).2,
        verify p.1 = some p.2 :=
      prepLoopG_verified _ _ verify pool [] 0 Selector.clear [] (by simp)
    have hpsym : ∀ p ∈ (prepLoopG (uint64OfInt maxTxBytesReq)
        (prepareMaxBlockGas block) verify pool [] 0 Selector.clear []).2,
        verifyP p.2 = some p.1.gas :=
      fun p hp => hsym p.1 p.2 (hverall p hp)
    have hallver : ∀ bz ∈ ((prepLoopG (uint64OfInt maxTxBytesReq)
        (prepareMaxBlockGas block) verify pool [] 0 Selector.clear []).2).map Prod.snd,
        (verifyP bz).isSome = true := by
      intro bz hbz
      rcases List.mem_map.mp hbz with ⟨p, hp, hpe⟩
      rw [← hpe, hpsym p hp]
      rfl
    rw [hresp]
    cases block with
    | none =>
      exact (processLoop_nonpos_iff verifyP 0 (by omega) _ 0).mpr hallver
    | some g =>
      rcases hrange g rfl with ⟨hg1, hg2⟩
      by_cases hgpos : 0 < g
      · have hmaxGpos : 0 < prepareMaxBlockGas (some g) := by
          simp only [prepareMaxBlockGas, uint64OfInt]
          omega
        have hgas := prepLoopG_gas (uint64OfInt maxTxBytesReq)
          (prepareMaxBlockGas (some g)) verify hmaxGpos pool [] 0 Selector.clear []
          rfl (by simp [admTotals])
        refine (processLoop_accept_iff verifyP g _ 0 (by simp only [U64_eq]; omega)).mpr
          ⟨hallver, fun hgp x hx => ?_⟩
        rw [gasTotals_eq_admTotals verifyP _ 0 hpsym] at hx
        exact hgas x hx
      · exact (processLoop_nonpos_iff verifyP g (by omega) _ 0).mpr hallver

/-- `decodeTx` inverts `encodeTx` with identical gas attribution. -/
theorem encodeTx_decodeTx (m : MemTx) (bz : ByteString) (h : encodeTx m = some bz) :
    decodeTx bz = some m.gas := by
  cases hg : m.gas with
  | none =>
    simp only [encodeTx, hg, Option.some.injEq] at h
    subst h
    rfl
  | some g =>
    simp only [encodeTx, hg, Option.some.injEq] at h
    subst h
    rfl

/-- Witness for `C3_builder_validator_symmetry` at a concrete
one-transaction mempool under a positive gas budget. -/
theorem C3_builder_validator_symmetry_witness :
    processProposal (.real [⟨some 5, [(1, 2)]⟩]) decodeTx (some 100)
      (prepareProposal (.real [⟨some 5, [(1, 2)]⟩]) encodeTx (some 100) 50 []) =
      .accept :=
  C3_builder_validator_symmetry (.real [⟨some 5, [(1, 2)]⟩]) encodeTx decodeTx
    (some 100) 50 [] (fun m bz h => encodeTx_decodeTx m bz h)
    (fun g hg => by
      cases hg
      constructor <;> decide)
